import Mathlib

/-!
Verification of the scoring core of the code-golf scraper.

The numeric computations of the program run on IEEE doubles; we embed them
over exact rationals, with `math.isclose` (default `rel_tol = 1e-9`,
`abs_tol = 0.0`) translated literally to the rational inequality
`|a - b| ≤ relTol * max |a| |b|`.  Failures (`assert`, division by zero)
are made explicit in a result type.
-/

set_option maxRecDepth 100000

namespace Scraper

/-- Python's default relative tolerance `1e-9` for `math.isclose`. -/
def relTol : ℚ := 1 / 1000000000

/-- `math.isclose(a, b)` with default arguments: `abs_tol` is `0.0`, so the
test is `|a - b| ≤ rel_tol * max |a| |b|`. -/
def isclose (a b : ℚ) : Bool :=
  decide (|a - b| ≤ relTol * max |a| |b|)

/-- `floor_with_tolerance` from the source: acts like `floor`, but rounds up
if `num` is close to the next highest integer. -/
def floor_with_tolerance (num : ℚ) : ℤ :=
  if isclose num (⌈num⌉ : ℚ) then ⌈num⌉ else ⌊num⌋

/-- Outcome of `get_chars_to_rank_up`: a returned value, a failed `assert`,
or a Python `ZeroDivisionError`. -/
inductive SolverResult where
  | ok (v : ℤ)
  | invariantViolation
  | zeroDivision
deriving DecidableEq

/-- The scan of `get_chars_to_rank_up`: starting at `new_rank - 1`, walk the
rank key downward until it is present in `score_for_rank`; the `assert
target_rank > 0` at the top of the loop fails when the scan reaches 0. -/
def findTargetScore (score_for_rank : Nat → Option ℚ) : Nat → Option ℚ
  | 0 => none
  | k + 1 =>
    match score_for_rank (k + 1) with
    | some t => some t
    | none => findTargetScore score_for_rank k

/-- Tail of `get_chars_to_rank_up`: the self-check on a candidate
`to_rank_up`, recomputing the score the candidate would achieve and
asserting it beats the target within tolerance. -/
def finish_rank_up (target_score : ℚ) (to_rank_up : ℤ) (n m sa s : ℚ) :
    SolverResult :=
  if n + m = 0 then SolverResult.zeroDivision
  else if (to_rank_up : ℚ) = 0 then SolverResult.zeroDivision
  else
    let next_sb := (n / (n + m)) * min s (to_rank_up : ℚ) +
      (m / (n + m)) * min sa (to_rank_up : ℚ)
    let next_score := 1000 * next_sb / (to_rank_up : ℚ)
    if next_score > target_score ∨ isclose next_score target_score = true then
      SolverResult.ok to_rank_up
    else SolverResult.invariantViolation

/-- `get_chars_to_rank_up` from the source.  Arguments in source order:
current stroke count, current rank, the rank-to-score map built so far,
and the aggregates `n`, `m`, `sa`, `s`, `sb` of this row. -/
def get_chars_to_rank_up (chars : ℚ) (new_rank : Nat)
    (score_for_rank : Nat → Option ℚ) (n m sa s sb : ℚ) : SolverResult :=
  match findTargetScore score_for_rank (new_rank - 1) with
  | none => SolverResult.invariantViolation
  | some target_score =>
    if chars > sa then
      if chars = s then
        let den := target_score * (n + m) - 1000 * n
        if den = 0 then SolverResult.zeroDivision
        else finish_rank_up target_score
          (floor_with_tolerance (1000 * sa * m / den)) n m sa s
      else
        if target_score = 0 then SolverResult.zeroDivision
        else finish_rank_up target_score
          (floor_with_tolerance (1000 * sb / target_score)) n m sa s
    else SolverResult.invariantViolation

/-- State threaded through the ranking loop of `write_hole_worksheet`:
`last_rank` (initially `None`) and the dict `score_for_rank`. -/
structure RankState where
  last_rank : Option Nat
  score_for_rank : Nat → Option ℚ

def initRankState : RankState := ⟨none, fun _ => none⟩

/-- The rank given to the entry at 0-based `index` with score `new_score`:
`index + 1`, except that a score close to the score recorded for the
previous entry's rank reuses that rank. -/
def assignRank (st : RankState) (index : Nat) (new_score : ℚ) : Nat :=
  match st.last_rank with
  | none => index + 1
  | some lr =>
    match st.score_for_rank lr with
    | none => index + 1
    | some prev => if isclose new_score prev then lr else index + 1

/-- One iteration of the ranking loop: assign the rank, remember it as
`last_rank`, and overwrite `score_for_rank` at that rank. -/
def rankStep (st : RankState) (index : Nat) (new_score : ℚ) :
    RankState × Nat :=
  let r := assignRank st index new_score
  (⟨some r, fun k => if k = r then some new_score else st.score_for_rank k⟩, r)

/-- Run the ranking loop over a list of scores (already ordered by
`new_score DESC, submitted` upstream), returning the assigned ranks and the
final state. -/
def rankList (st : RankState) (index : Nat) : List ℚ → List Nat × RankState
  | [] => ([], st)
  | sc :: rest =>
    let p := rankStep st index sc
    let q := rankList p.1 (index + 1) rest
    (p.2 :: q.1, q.2)

/-- The ranks `write_hole_worksheet` assigns to a score sequence. -/
def compactRanks (scores : List ℚ) : List Nat :=
  (rankList initRankState 0 scores).1

/-- The rank-to-score map after the whole sequence has been processed. -/
def finalState (scores : List ℚ) : RankState :=
  (rankList initRankState 0 scores).2

/-! ### The aggregate views of `make_database` -/

/-- A row of the `solutions` table. -/
structure SolutionInfo where
  user : String
  lang : String
  hole : String
  strokes : ℤ
  submitted : String
deriving DecidableEq

/-- SQL `MIN` over a group; groups are never empty in the views, the value
on `[]` is arbitrary. -/
def listMin : List ℤ → ℤ
  | [] => 0
  | a :: as => as.foldl min a

/-- `NLang` of the `m_values` view: `count(*) ... group by lang`, the
number of solution rows in the given language. -/
def NLang (sols : List SolutionInfo) (lang : String) : ℕ :=
  (sols.filter (fun x => x.lang == lang)).length

/-- `Nmax` of the `m_values` view: the largest per-language row count. -/
def Nmax (sols : List SolutionInfo) : ℕ :=
  (sols.map (fun x => NLang sols x.lang)).foldr max 0

/-- `M` of the `m_values` view: `2.0 * NLang / Nmax + 1`. -/
def M_val (sols : List SolutionInfo) (lang : String) : ℚ :=
  2 * (NLang sols lang : ℚ) / (Nmax sols : ℚ) + 1

/-- `N` of the `bayesian` view: `count(*) ... group by lang, hole`. -/
def N_val (sols : List SolutionInfo) (lang hole : String) : ℕ :=
  (sols.filter (fun x => x.lang == lang && x.hole == hole)).length

/-- `S` of the `bayesian` view: `min(strokes) ... group by lang, hole`. -/
def S_val (sols : List SolutionInfo) (lang hole : String) : ℤ :=
  listMin ((sols.filter (fun x => x.lang == lang && x.hole == hole)).map
    SolutionInfo.strokes)

/-- `Sa` of the `bayesian` view: `min(strokes) ... group by hole`. -/
def Sa_val (sols : List SolutionInfo) (hole : String) : ℤ :=
  listMin ((sols.filter (fun x => x.hole == hole)).map SolutionInfo.strokes)

/-- `Sb` of the `bayesian` view:
`(N / (N + M)) * S + (M / (N + M)) * Sa`. -/
def Sb_val (sols : List SolutionInfo) (lang hole : String) : ℚ :=
  ((N_val sols lang hole : ℚ) / ((N_val sols lang hole : ℚ) + M_val sols lang))
      * (S_val sols lang hole : ℚ)
    + (M_val sols lang / ((N_val sols lang hole : ℚ) + M_val sols lang))
      * (Sa_val sols hole : ℚ)

/-- The languages appearing in the solution set (the `group by lang` keys). -/
def langsOf (sols : List SolutionInfo) : List String :=
  (sols.map SolutionInfo.lang).dedup

/-- The holes appearing in the solution set (the `group by hole` keys). -/
def holesOf (sols : List SolutionInfo) : List String :=
  (sols.map SolutionInfo.hole).dedup

/-- The `(lang, hole)` group keys of the `bayesian` view. -/
def langHoles (sols : List SolutionInfo) : List (String × String) :=
  (sols.map (fun x => (x.lang, x.hole))).dedup

/-- The rows of the `m_values` view: one `(lang, M)` row per language
present (the cross join is empty when the table is empty). -/
def m_valuesView (sols : List SolutionInfo) : List (String × ℚ) :=
  (langsOf sols).map (fun l => (l, M_val sols l))

/-- A row of the `bayesian` view. -/
structure BayesRow where
  lang : String
  hole : String
  N : ℕ
  M : ℚ
  S : ℤ
  Sa : ℤ
  Sb : ℚ
deriving DecidableEq

/-- The rows of the `bayesian` view: one row per `(lang, hole)` group. -/
def bayesianView (sols : List SolutionInfo) : List BayesRow :=
  (langHoles sols).map (fun p =>
    ⟨p.1, p.2, N_val sols p.1 p.2, M_val sols p.1, S_val sols p.1 p.2,
      Sa_val sols p.2, Sb_val sols p.1 p.2⟩)

/-- The per-hole baseline `Sa` rows (the `t2` subquery of the `bayesian`
view): one `(hole, Sa)` row per hole present. -/
def baselineView (sols : List SolutionInfo) : List (String × ℤ) :=
  (holesOf sols).map (fun h => (h, Sa_val sols h))

/-- Modelled from the spec: `N_lang` as the spec words it, "the count of
puzzles solved by that language (breadth, not raw submissions)" — the
number of distinct holes with a solution in the language.  Used only to
compare the spec's formula with the one in the source. -/
def NLangBreadth (sols : List SolutionInfo) (lang : String) : ℕ :=
  ((sols.filter (fun x => x.lang == lang)).map SolutionInfo.hole).dedup.length

/-- Modelled from the spec: the maximum puzzle breadth across languages. -/
def NmaxBreadth (sols : List SolutionInfo) : ℕ :=
  (sols.map (fun x => NLangBreadth sols x.lang)).foldr max 0

/-- Modelled from the spec: the shrinkage weight computed from puzzle
breadth, `2.0 * N_lang / N_max + 1` with breadth counts. -/
def M_breadth (sols : List SolutionInfo) (lang : String) : ℚ :=
  2 * (NLangBreadth sols lang : ℚ) / (NmaxBreadth sols : ℚ) + 1

/-! ### Helper lemmas about the solver -/

lemma finish_rank_up_ok {t : ℚ} {w : ℤ} {n m sa s : ℚ} {v : ℤ}
    (h : finish_rank_up t w n m sa s = SolverResult.ok v) : v = w := by
  simp only [finish_rank_up] at h
  split_ifs at h <;> simp_all

lemma finish_rank_up_check {t : ℚ} {w : ℤ} {n m sa s : ℚ} {v : ℤ}
    (h : finish_rank_up t w n m sa s = SolverResult.ok v) :
    1000 * ((n / (n + m)) * min s (v : ℚ) + (m / (n + m)) * min sa (v : ℚ))
        / (v : ℚ) > t ∨
      isclose (1000 * ((n / (n + m)) * min s (v : ℚ) +
        (m / (n + m)) * min sa (v : ℚ)) / (v : ℚ)) t = true := by
  have hv := finish_rank_up_ok h
  subst hv
  simp only [finish_rank_up] at h
  split_ifs at h with h1 h2 h3
  exact h3

lemma findTargetScore_none (sfr : Nat → Option ℚ) :
    ∀ r, (∀ j, 1 ≤ j → j ≤ r → sfr j = none) → findTargetScore sfr r = none
  | 0, _ => rfl
  | r + 1, h => by
    have h1 : sfr (r + 1) = none := h (r + 1) (by omega) (le_refl _)
    simp only [findTargetScore, h1]
    exact findTargetScore_none sfr r fun j hj1 hj2 => h j hj1 (by omega)

lemma findTargetScore_found (sfr : Nat → Option ℚ) (k : Nat) (t : ℚ)
    (hk : sfr k = some t) (hk0 : 0 < k) :
    ∀ r, k ≤ r → (∀ j, k < j → j ≤ r → sfr j = none) →
      findTargetScore sfr r = some t
  | 0, hr, _ => absurd (hk0.trans_le hr) (lt_irrefl 0)
  | r + 1, hr, hnone => by
    rcases Nat.eq_or_lt_of_le hr with heq | hlt
    · simp only [findTargetScore, ← heq, hk]
    · have h1 : sfr (r + 1) = none := hnone (r + 1) hlt (le_refl _)
      simp only [findTargetScore, h1]
      exact findTargetScore_found sfr k t hk hk0 r (by omega)
        fun j hj1 hj2 => hnone j hj1 (by omega)

/-! ### Claim theorems about the solver -/

/-- C1: for a solver invocation with rank above 1 whose target score
resolves to `t`, a returned `to_rank_up` equals
`floor_with_tolerance (1000 * Sa * M / (t * (N + M) - 1000 * N))` when the
submission's cost equals its language minimum `S`, and
`floor_with_tolerance (1000 * Sb / t)` otherwise. -/
theorem chars_to_rank_up_formula (chars : ℚ) (new_rank : Nat)
    (sfr : Nat → Option ℚ) (n m sa s sb t : ℚ) (v : ℤ)
    (hr : 1 < new_rank)
    (ht : findTargetScore sfr (new_rank - 1) = some t)
    (hok : get_chars_to_rank_up chars new_rank sfr n m sa s sb =
      SolverResult.ok v) :
    v = if chars = s then
          floor_with_tolerance (1000 * sa * m / (t * (n + m) - 1000 * n))
        else floor_with_tolerance (1000 * sb / t) := by
  simp only [get_chars_to_rank_up, ht] at hok
  by_cases hgt : chars > sa
  · rw [if_pos hgt] at hok
    by_cases hs : chars = s
    · rw [if_pos hs] at hok
      rw [if_pos hs]
      by_cases hden : t * (n + m) - 1000 * n = 0
      · rw [if_pos hden] at hok; cases hok
      · rw [if_neg hden] at hok
        exact finish_rank_up_ok hok
    · rw [if_neg hs] at hok
      rw [if_neg hs]
      by_cases ht0 : t = 0
      · rw [if_pos ht0] at hok; cases hok
      · rw [if_neg ht0] at hok
        exact finish_rank_up_ok hok
  · rw [if_neg hgt] at hok; cases hok

/-- C1 witness: a concrete non-record-holder invocation (`chars = 12`,
`S = 10`, target `800`) returns `10 = floor_with_tolerance (1000 * Sb / 800)`. -/
theorem chars_to_rank_up_formula_witness :
    (1 < 2 ∧
      findTargetScore (fun k => if k = 1 then some 800 else none) 1 =
        some 800 ∧
      get_chars_to_rank_up 12 2 (fun k => if k = 1 then some 800 else none)
        2 1 5 10 (25 / 3) = SolverResult.ok 10) ∧
    (10 : ℤ) = if (12 : ℚ) = 10 then
        floor_with_tolerance (1000 * 5 * 1 / (800 * (2 + 1) - 1000 * 2))
      else floor_with_tolerance (1000 * (25 / 3) / 800) :=
  ⟨⟨by with_unfolding_all decide, by with_unfolding_all decide,
      by with_unfolding_all decide⟩,
    chars_to_rank_up_formula 12 2 (fun k => if k = 1 then some 800 else none)
      2 1 5 10 (25 / 3) 800 10 (by with_unfolding_all decide)
      (by with_unfolding_all decide) (by with_unfolding_all decide)⟩

/-- C2 counterexample: a record-holder invocation whose denominator
`t * (N + M) - 1000 * N` is negative does not produce any explicit
"no achievable target" result: it returns the negative value `-1`
(`N = 9`, `M = 1`, `Sa = 1`, `S = chars = 10`, target score `500`,
denominator `-4000`). -/
theorem negative_denominator_returns_negative :
    (500 : ℚ) * (9 + 1) - 1000 * 9 < 0 ∧
    get_chars_to_rank_up 10 2 (fun k => if k = 1 then some 500 else none)
      9 1 1 10 (91 / 10) = SolverResult.ok (-1) := by
  with_unfolding_all decide

/-- C2 (amended): for a record-holder invocation whose denominator is
exactly zero, the solver raises a division-by-zero error; a negative
denominator instead yields a negative returned value (see the
counterexample), and no `Unreachable` result exists in the code. -/
theorem zero_denominator_division_error (chars : ℚ) (new_rank : Nat)
    (sfr : Nat → Option ℚ) (n m sa s sb t : ℚ)
    (ht : findTargetScore sfr (new_rank - 1) = some t)
    (hgt : chars > sa) (hs : chars = s)
    (hden : t * (n + m) - 1000 * n = 0) :
    get_chars_to_rank_up chars new_rank sfr n m sa s sb =
      SolverResult.zeroDivision := by
  simp only [get_chars_to_rank_up, ht]
  rw [if_pos hgt, if_pos hs, if_pos hden]

/-- C2 witness: with `N = M = 1` and target score `500` the record-holder
denominator `500 * (1 + 1) - 1000 * 1` is zero and the solver reports the
division-by-zero error. -/
theorem zero_denominator_division_error_witness :
    (findTargetScore (fun k => if k = 1 then some 500 else none) 1 =
        some 500 ∧
      (10 : ℚ) > 1 ∧ (10 : ℚ) = 10 ∧
      (500 : ℚ) * (1 + 1) - 1000 * 1 = 0) ∧
    get_chars_to_rank_up 10 2 (fun k => if k = 1 then some 500 else none)
      1 1 1 10 (11 / 2) = SolverResult.zeroDivision :=
  ⟨⟨by with_unfolding_all decide, by with_unfolding_all decide, rfl,
      by with_unfolding_all decide⟩,
    zero_denominator_division_error 10 2
      (fun k => if k = 1 then some 500 else none) 1 1 1 10 (11 / 2) 500
      (by with_unfolding_all decide) (by with_unfolding_all decide) rfl
      (by with_unfolding_all decide)⟩

/-- C4: a value returned by the solver always passes the runtime
self-check: the score recomputed at `to_rank_up` with
`min(S, to_rank_up)` and `min(Sa, to_rank_up)` substituted into the
blend is greater than the resolved target score or within `isclose`
tolerance of it. -/
theorem returned_value_passes_self_check (chars : ℚ) (new_rank : Nat)
    (sfr : Nat → Option ℚ) (n m sa s sb t : ℚ) (v : ℤ)
    (ht : findTargetScore sfr (new_rank - 1) = some t)
    (hok : get_chars_to_rank_up chars new_rank sfr n m sa s sb =
      SolverResult.ok v) :
    1000 * ((n / (n + m)) * min s (v : ℚ) + (m / (n + m)) * min sa (v : ℚ))
        / (v : ℚ) > t ∨
      isclose (1000 * ((n / (n + m)) * min s (v : ℚ) +
        (m / (n + m)) * min sa (v : ℚ)) / (v : ℚ)) t = true := by
  simp only [get_chars_to_rank_up, ht] at hok
  by_cases hgt : chars > sa
  · rw [if_pos hgt] at hok
    by_cases hs : chars = s
    · rw [if_pos hs] at hok
      by_cases hden : t * (n + m) - 1000 * n = 0
      · rw [if_pos hden] at hok; cases hok
      · rw [if_neg hden] at hok
        exact finish_rank_up_check hok
    · rw [if_neg hs] at hok
      by_cases ht0 : t = 0
      · rw [if_pos ht0] at hok; cases hok
      · rw [if_neg ht0] at hok
        exact finish_rank_up_check hok
  · rw [if_neg hgt] at hok; cases hok

/-- C4 witness: the concrete invocation returning `10` against target `800`
recomputes to a score of `2500 / 3 > 800`. -/
theorem returned_value_passes_self_check_witness :
    (findTargetScore (fun k => if k = 1 then some 800 else none) 1 =
        some 800 ∧
      get_chars_to_rank_up 12 2 (fun k => if k = 1 then some 800 else none)
        2 1 5 10 (25 / 3) = SolverResult.ok 10) ∧
    (1000 * (((2 : ℚ) / (2 + 1)) * min 10 ((10 : ℤ) : ℚ) +
          ((1 : ℚ) / (2 + 1)) * min 5 ((10 : ℤ) : ℚ)) / ((10 : ℤ) : ℚ) > 800 ∨
      isclose (1000 * (((2 : ℚ) / (2 + 1)) * min 10 ((10 : ℤ) : ℚ) +
        ((1 : ℚ) / (2 + 1)) * min 5 ((10 : ℤ) : ℚ)) / ((10 : ℤ) : ℚ)) 800 =
        true) :=
  ⟨⟨by with_unfolding_all decide, by with_unfolding_all decide⟩,
    returned_value_passes_self_check 12 2
      (fun k => if k = 1 then some 800 else none) 2 1 5 10 (25 / 3) 800 10
      (by with_unfolding_all decide) (by with_unfolding_all decide)⟩

/-- C8: the target score of the solver is obtained by scanning ranks
`r - 1, r - 2, ...` downward until a populated rank is found, and when
every rank from `r - 1` down to 1 is unpopulated the solver fails with
the invariant violation (the `assert target_rank > 0`). -/
theorem target_scan_and_exhaustion (chars : ℚ) (new_rank : Nat)
    (sfr : Nat → Option ℚ) (n m sa s sb : ℚ) :
    ((∀ j, 1 ≤ j → j ≤ new_rank - 1 → sfr j = none) →
      get_chars_to_rank_up chars new_rank sfr n m sa s sb =
        SolverResult.invariantViolation) ∧
    (∀ k t, sfr k = some t → 0 < k → k ≤ new_rank - 1 →
      (∀ j, k < j → j ≤ new_rank - 1 → sfr j = none) →
      findTargetScore sfr (new_rank - 1) = some t) := by
  constructor
  · intro hnone
    simp only [get_chars_to_rank_up,
      findTargetScore_none sfr (new_rank - 1) hnone]
  · intro k t hk hk0 hkr hnone
    exact findTargetScore_found sfr k t hk hk0 (new_rank - 1) hkr hnone

/-- C8 witness: with an empty rank map the solver fails with the invariant
violation, and a populated rank 1 is found by the scan from rank 1. -/
theorem target_scan_and_exhaustion_witness :
    get_chars_to_rank_up 10 2 (fun _ => none) 1 1 1 10 1 =
        SolverResult.invariantViolation ∧
      findTargetScore (fun k => if k = 1 then some 500 else none) 1 =
        some 500 :=
  ⟨(target_scan_and_exhaustion 10 2 (fun _ => none) 1 1 1 10 1).1
      fun j _ _ => rfl,
    (target_scan_and_exhaustion 10 2
        (fun k => if k = 1 then some 500 else none) 1 1 1 10 1).2 1 500
      (by with_unfolding_all decide) (by with_unfolding_all decide)
      (by with_unfolding_all decide)
      fun j hj1 hj2 => absurd (hj1.trans_le hj2) (lt_irrefl 1)⟩

/-! ### Helper lemmas about the rank compactor -/

lemma rankList_fst_length (l : List ℚ) :
    ∀ (st : RankState) (idx : Nat), ((rankList st idx l).1).length = l.length := by
  induction l with
  | nil => intro st idx; rfl
  | cons a l ih => intro st idx; simp [rankList, ih]

lemma rankList_append (l1 l2 : List ℚ) :
    ∀ (st : RankState) (idx : Nat),
      rankList st idx (l1 ++ l2) =
        ((rankList st idx l1).1 ++
            (rankList (rankList st idx l1).2 (idx + l1.length) l2).1,
          (rankList (rankList st idx l1).2 (idx + l1.length) l2).2) := by
  induction l1 with
  | nil => intro st idx; simp [rankList]
  | cons a l1 ih =>
    intro st idx
    simp only [List.cons_append, rankList, List.length_cons, List.append_eq, ih]
    rw [show idx + (l1.length + 1) = idx + 1 + l1.length from by omega]

lemma rankList_two (st : RankState) (idx : Nat) (x y : ℚ) (rest : List ℚ) :
    (rankList st idx (x :: y :: rest)).1 =
      assignRank st idx x ::
        (if isclose y x = true then assignRank st idx x else idx + 1 + 1) ::
        (rankList (rankStep (rankStep st idx x).1 (idx + 1) y).1 (idx + 1 + 1)
          rest).1 := by
  simp only [rankList, rankStep, assignRank]
  simp

/-! ### Claim theorems about the rank compactor -/

/-- C3 counterexample: over scores `[100, 50, 50, 30]` the compactor
assigns ranks `[1, 2, 2, 4]`: after the two entries tied at rank 2 the
next distinct entry receives rank 4, not the claimed rank 3. -/
theorem rank_gap_after_tie_example :
    compactRanks [100, 50, 50, 30] = [1, 2, 2, 4] ∧
      ([1, 2, 2, 4] : List Nat) ≠ [1, 2, 2, 3] := by
  with_unfolding_all decide

/-- C3 (amended): an entry whose score is not within tolerance of the
score recorded for the preceding entry's rank receives the rank equal to
its own 1-based position, regardless of earlier ties — so after `k`
entries tied at rank `r` the next distinct entry receives rank `r + k`,
skipping integer ranks. -/
theorem distinct_score_gets_position_rank (pre : List ℚ) (x y : ℚ)
    (post : List ℚ) (h : isclose y x = false) :
    (compactRanks (pre ++ x :: y :: post))[pre.length + 1]? =
      some (pre.length + 2) := by
  unfold compactRanks
  rw [rankList_append]
  have hlen : ((rankList initRankState 0 pre).1).length = pre.length :=
    rankList_fst_length pre _ 0
  rw [List.getElem?_append_right (by omega)]
  rw [hlen, Nat.add_sub_cancel_left, rankList_two]
  simp [h]

/-- C3 witness: in `[100, 50, 50, 30]`, the entry `30` (position 4) is not
within tolerance of `50` and receives rank 4. -/
theorem distinct_score_gets_position_rank_witness :
    isclose 30 50 = false ∧
      (compactRanks [100, 50, 50, 30])[3]? = some 4 :=
  ⟨by with_unfolding_all decide,
    distinct_score_gets_position_rank [100, 50] 50 30 []
      (by with_unfolding_all decide)⟩

/-- C6: an entry whose score is within `isclose` tolerance (relative
tolerance `1e-9`) of the score recorded for the immediately preceding
rank receives the same rank as its predecessor. -/
theorem tolerance_tie_shares_rank (pre : List ℚ) (x y : ℚ) (post : List ℚ)
    (h : isclose y x = true) :
    (compactRanks (pre ++ x :: y :: post))[pre.length + 1]? =
      (compactRanks (pre ++ x :: y :: post))[pre.length]? := by
  unfold compactRanks
  rw [rankList_append]
  have hlen : ((rankList initRankState 0 pre).1).length = pre.length :=
    rankList_fst_length pre _ 0
  rw [List.getElem?_append_right (by omega),
    List.getElem?_append_right (by omega)]
  rw [hlen, Nat.add_sub_cancel_left, Nat.sub_self, rankList_two]
  simp [h]

/-- C6 witness: two equal scores `[50, 50]` share rank 1. -/
theorem tolerance_tie_shares_rank_witness :
    isclose 50 50 = true ∧
      (compactRanks [50, 50])[1]? = (compactRanks [50, 50])[0]? :=
  ⟨by with_unfolding_all decide,
    tolerance_tie_shares_rank [] 50 50 [] (by with_unfolding_all decide)⟩

/-- C10: tie detection is adjacent-only and tied entries overwrite the
recorded score of their rank: with `b` within tolerance of `a`, and `c`
within tolerance of `a` but not of the last-recorded `b`, the ranks are
`[1, 1, 3]` (`c` gets a fresh rank), the score recorded for rank 1 is `b`
(the last tied entry, not the first), and the solver's target scan for
the rank-3 entry resolves to `b`. -/
theorem adjacent_only_tie_detection (a b c : ℚ)
    (hba : isclose b a = true) (hca : isclose c a = true)
    (hcb : isclose c b = false) :
    compactRanks [a, b, c] = [1, 1, 3] ∧
      (finalState [a, b, c]).score_for_rank 1 = some b ∧
      findTargetScore (finalState [a, b, c]).score_for_rank 2 = some b := by
  refine ⟨?_, ?_, ?_⟩ <;>
    simp [compactRanks, finalState, rankList, rankStep, assignRank,
      initRankState, findTargetScore, hba, hcb]

/-- C10 witness: `a = 1`, `b = 1 + 1e-9`, `c = 1 - 1e-9`: `b` and `c` are
both within tolerance of `a` but `c` is not within tolerance of `b`. -/
theorem adjacent_only_tie_detection_witness :
    (isclose (1 + 1 / 1000000000) 1 = true ∧
      isclose (1 - 1 / 1000000000) 1 = true ∧
      isclose (1 - 1 / 1000000000) (1 + 1 / 1000000000) = false) ∧
    compactRanks [1, 1 + 1 / 1000000000, 1 - 1 / 1000000000] = [1, 1, 3] ∧
      (finalState [1, 1 + 1 / 1000000000, 1 - 1 / 1000000000]).score_for_rank
          1 = some (1 + 1 / 1000000000) ∧
      findTargetScore
        (finalState [1, 1 + 1 / 1000000000,
          1 - 1 / 1000000000]).score_for_rank 2 = some (1 + 1 / 1000000000) :=
  ⟨⟨by with_unfolding_all decide, by with_unfolding_all decide,
      by with_unfolding_all decide⟩,
    adjacent_only_tie_detection 1 (1 + 1 / 1000000000) (1 - 1 / 1000000000)
      (by with_unfolding_all decide) (by with_unfolding_all decide)
      (by with_unfolding_all decide)⟩

/-! ### Helper lemmas about the aggregate views -/

lemma foldl_min_le_base (as : List ℤ) : ∀ a : ℤ, as.foldl min a ≤ a := by
  induction as with
  | nil => intro a; exact le_refl a
  | cons b as ih => intro a; exact (ih (min a b)).trans (min_le_left a b)

lemma foldl_min_le_mem (as : List ℤ) :
    ∀ (a x : ℤ), x ∈ as → as.foldl min a ≤ x := by
  induction as with
  | nil => intro a x hx; cases hx
  | cons b as ih =>
    intro a x hx
    rcases List.mem_cons.mp hx with rfl | hx
    · exact (foldl_min_le_base as (min a x)).trans (min_le_right a x)
    · exact ih (min a b) x hx

lemma listMin_le (l : List ℤ) (x : ℤ) (hx : x ∈ l) : listMin l ≤ x := by
  cases l with
  | nil => cases hx
  | cons a as =>
    rcases List.mem_cons.mp hx with rfl | hx
    · exact foldl_min_le_base as x
    · exact foldl_min_le_mem as a x hx

lemma foldl_min_mem (as : List ℤ) : ∀ a : ℤ, as.foldl min a ∈ a :: as := by
  induction as with
  | nil => intro a; exact List.mem_cons_self a []
  | cons b as ih =>
    intro a
    have h := ih (min a b)
    simp only [List.foldl_cons]
    rcases List.mem_cons.mp h with heq | hmem
    · rw [heq]
      rcases min_choice a b with h1 | h1 <;> rw [h1] <;> simp
    · exact List.mem_cons_of_mem a (List.mem_cons_of_mem b hmem)

lemma listMin_mem : ∀ (l : List ℤ), l ≠ [] → listMin l ∈ l
  | [], h => absurd rfl h
  | a :: as, _ => foldl_min_mem as a

lemma mem_of_mem_langHoles {sols : List SolutionInfo} {lang hole : String}
    (h : (lang, hole) ∈ langHoles sols) :
    ∃ x ∈ sols, x.lang = lang ∧ x.hole = hole := by
  simp only [langHoles, List.mem_dedup, List.mem_map] at h
  obtain ⟨x, hx, hxe⟩ := h
  cases hxe
  exact ⟨x, hx, rfl, rfl⟩

lemma N_val_pos {sols : List SolutionInfo} {lang hole : String}
    (h : (lang, hole) ∈ langHoles sols) : 1 ≤ N_val sols lang hole := by
  obtain ⟨x, hx, hl, hh⟩ := mem_of_mem_langHoles h
  exact List.length_pos_of_mem
    (by rw [List.mem_filter]; exact ⟨hx, by simp [hl, hh]⟩)

lemma one_le_M_val (sols : List SolutionInfo) (lang : String) :
    1 ≤ M_val sols lang := by
  unfold M_val
  have h : 0 ≤ 2 * (NLang sols lang : ℚ) / (Nmax sols : ℚ) := by positivity
  linarith

lemma Sa_le_S (sols : List SolutionInfo) (lang hole : String)
    (h : (lang, hole) ∈ langHoles sols) :
    Sa_val sols hole ≤ S_val sols lang hole := by
  obtain ⟨x, hx, hl, hh⟩ := mem_of_mem_langHoles h
  have hxf : x ∈ sols.filter (fun y => y.lang == lang && y.hole == hole) := by
    rw [List.mem_filter]
    exact ⟨hx, by simp [hl, hh]⟩
  have hne : sols.filter (fun y => y.lang == lang && y.hole == hole) ≠ [] :=
    List.ne_nil_of_mem hxf
  have hmem : S_val sols lang hole ∈
      (sols.filter (fun y => y.lang == lang && y.hole == hole)).map
        SolutionInfo.strokes :=
    listMin_mem _ (by simpa using hne)
  rw [List.mem_map] at hmem
  obtain ⟨y, hyf, hy⟩ := hmem
  rw [List.mem_filter] at hyf
  have hyh : (y.hole == hole) = true := by
    have h2 := hyf.2
    simp only [Bool.and_eq_true] at h2
    exact h2.2
  have hy2 : y ∈ sols.filter (fun z => z.hole == hole) := by
    rw [List.mem_filter]
    exact ⟨hyf.1, hyh⟩
  have hfin := listMin_le _ y.strokes
    (List.mem_map_of_mem SolutionInfo.strokes hy2)
  rw [hy] at hfin
  exact hfin

lemma convex_blend_bounds (Nq Mq Sq Saq : ℚ) (hN : 1 ≤ Nq) (hM : 1 ≤ Mq)
    (hSaS : Saq ≤ Sq) :
    Saq ≤ (Nq / (Nq + Mq)) * Sq + (Mq / (Nq + Mq)) * Saq ∧
      (Nq / (Nq + Mq)) * Sq + (Mq / (Nq + Mq)) * Saq ≤ Sq := by
  have hD : 0 < Nq + Mq := by linarith
  have he : (Nq / (Nq + Mq)) * Sq + (Mq / (Nq + Mq)) * Saq
      = (Nq * Sq + Mq * Saq) / (Nq + Mq) := by
    field_simp
  constructor
  · rw [he, le_div_iff hD]
    nlinarith [mul_le_mul_of_nonneg_left hSaS (by linarith : (0 : ℚ) ≤ Nq)]
  · rw [he, div_le_iff hD]
    nlinarith [mul_le_mul_of_nonneg_left hSaS (by linarith : (0 : ℚ) ≤ Mq)]

lemma one_le_NLang_of_mem {sols : List SolutionInfo} {lang : String}
    (h : lang ∈ langsOf sols) : 1 ≤ NLang sols lang := by
  simp only [langsOf, List.mem_dedup, List.mem_map] at h
  obtain ⟨x, hx, rfl⟩ := h
  exact List.length_pos_of_mem (by rw [List.mem_filter]; exact ⟨hx, by simp⟩)

/-! ### Claim theorems about the aggregate views -/

/-- C5: for every `(lang, hole)` group of the `bayesian` view, `Sb` is the
stated blend of `S` and `Sa`, lies between `min(S, Sa)` and `max(S, Sa)`,
and since the global minimum `Sa` is at most the per-language minimum `S`,
`Sa ≤ Sb ≤ S`. -/
theorem blended_expectation_bounds (sols : List SolutionInfo)
    (lang hole : String) (h : (lang, hole) ∈ langHoles sols) :
    Sb_val sols lang hole =
        ((N_val sols lang hole : ℚ) /
            ((N_val sols lang hole : ℚ) + M_val sols lang)) *
          (S_val sols lang hole : ℚ) +
        (M_val sols lang / ((N_val sols lang hole : ℚ) + M_val sols lang)) *
          (Sa_val sols hole : ℚ) ∧
      min (S_val sols lang hole : ℚ) (Sa_val sols hole : ℚ) ≤
        Sb_val sols lang hole ∧
      Sb_val sols lang hole ≤
        max (S_val sols lang hole : ℚ) (Sa_val sols hole : ℚ) ∧
      (Sa_val sols hole : ℚ) ≤ (S_val sols lang hole : ℚ) ∧
      (Sa_val sols hole : ℚ) ≤ Sb_val sols lang hole ∧
      Sb_val sols lang hole ≤ (S_val sols lang hole : ℚ) := by
  have hN : (1 : ℚ) ≤ (N_val sols lang hole : ℚ) := by
    exact_mod_cast N_val_pos h
  have hM : 1 ≤ M_val sols lang := one_le_M_val sols lang
  have hSaS : (Sa_val sols hole : ℚ) ≤ (S_val sols lang hole : ℚ) := by
    exact_mod_cast Sa_le_S sols lang hole h
  have hb := convex_blend_bounds (N_val sols lang hole : ℚ) (M_val sols lang)
    (S_val sols lang hole : ℚ) (Sa_val sols hole : ℚ) hN hM hSaS
  refine ⟨rfl, ?_, ?_, hSaS, hb.1, hb.2⟩
  · rw [min_eq_right hSaS]; exact hb.1
  · rw [max_eq_left hSaS]; exact hb.2

/-- C5 witness: a single submission of cost 10 gives `Sa = Sb = S = 10`. -/
theorem blended_expectation_bounds_witness :
    ("py", "h1") ∈ langHoles [(⟨"u1", "py", "h1", 10, "t"⟩ : SolutionInfo)] ∧
      (Sa_val [(⟨"u1", "py", "h1", 10, "t"⟩ : SolutionInfo)] "h1" : ℚ) ≤
        Sb_val [(⟨"u1", "py", "h1", 10, "t"⟩ : SolutionInfo)] "py" "h1" :=
  ⟨by with_unfolding_all decide,
    (blended_expectation_bounds _ "py" "h1"
        (by with_unfolding_all decide)).2.2.2.2.1⟩

/-- C7 counterexample: language "B" solved one hole with one submission
while "A" has two submissions on one hole; the view computes
`M("B") = 2 * 1 / 2 + 1 = 2` from raw row counts, whereas the claimed
puzzle-breadth formula gives `2 * 1 / 1 + 1 = 3`. -/
theorem m_value_uses_row_count_not_breadth :
    M_val [⟨"u1", "A", "h1", 5, "t"⟩, ⟨"u2", "A", "h1", 6, "t"⟩,
        ⟨"u1", "B", "h1", 7, "t"⟩] "B" = 2 ∧
      M_breadth [⟨"u1", "A", "h1", 5, "t"⟩, ⟨"u2", "A", "h1", 6, "t"⟩,
        ⟨"u1", "B", "h1", 7, "t"⟩] "B" = 3 ∧
      (2 : ℚ) ≠ 3 := by
  with_unfolding_all decide

/-- C7 (amended): the shrinkage weight uses raw per-language solution-row
counts, `M = 2 * count(lang) / max_count + 1` — not puzzle breadth.  Then
`M ≥ 1` for every language and `M = 3` for a language attaining the
maximal row count. -/
theorem m_value_row_count_bounds (sols : List SolutionInfo) (lang : String)
    (h : lang ∈ langsOf sols) :
    M_val sols lang = 2 * (NLang sols lang : ℚ) / (Nmax sols : ℚ) + 1 ∧
      1 ≤ M_val sols lang ∧
      (NLang sols lang = Nmax sols → M_val sols lang = 3) := by
  refine ⟨rfl, one_le_M_val sols lang, ?_⟩
  intro heq
  have h1 : 1 ≤ NLang sols lang := one_le_NLang_of_mem h
  have h2 : (Nmax sols : ℚ) ≠ 0 := by
    rw [← heq]
    exact Nat.cast_ne_zero.mpr (by omega)
  unfold M_val
  rw [heq, mul_div_assoc, div_self h2]
  norm_num

/-- C7 witness: "A" has the maximal row count (2 of 2) and `M("A") = 3`. -/
theorem m_value_row_count_bounds_witness :
    "A" ∈ langsOf [⟨"u1", "A", "h1", 5, "t"⟩, ⟨"u2", "A", "h1", 6, "t"⟩,
        ⟨"u1", "B", "h1", 7, "t"⟩] ∧
      NLang [⟨"u1", "A", "h1", 5, "t"⟩, ⟨"u2", "A", "h1", 6, "t"⟩,
          ⟨"u1", "B", "h1", 7, "t"⟩] "A" =
        Nmax [⟨"u1", "A", "h1", 5, "t"⟩, ⟨"u2", "A", "h1", 6, "t"⟩,
          ⟨"u1", "B", "h1", 7, "t"⟩] ∧
      M_val [⟨"u1", "A", "h1", 5, "t"⟩, ⟨"u2", "A", "h1", 6, "t"⟩,
        ⟨"u1", "B", "h1", 7, "t"⟩] "A" = 3 :=
  ⟨by with_unfolding_all decide, by with_unfolding_all decide,
    (m_value_row_count_bounds _ "A" (by with_unfolding_all decide)).2.2
      (by with_unfolding_all decide)⟩

/-- C9 counterexample: on an empty submission set the aggregate views are
all produced empty — there is no failure, so no `InsufficientData` error
is ever signalled. -/
theorem empty_input_empty_aggregates :
    m_valuesView [] = [] ∧ bayesianView [] = [] ∧ baselineView [] = [] :=
  ⟨rfl, rfl, rfl⟩

/-- C9 (amended): given an empty submission set the aggregate builder
produces empty popularity, blended and baseline views instead of failing. -/
theorem empty_input_gives_empty_views (sols : List SolutionInfo)
    (h : sols = []) :
    m_valuesView sols = [] ∧ bayesianView sols = [] ∧
      baselineView sols = [] := by
  subst h
  exact ⟨rfl, rfl, rfl⟩

/-- C9 witness: the amended statement applied to the empty list. -/
theorem empty_input_gives_empty_views_witness :
    ([] : List SolutionInfo) = [] ∧
      (m_valuesView [] = [] ∧ bayesianView [] = [] ∧
        baselineView [] = []) :=
  ⟨rfl, empty_input_gives_empty_views [] rfl⟩

end Scraper
